import Mathlib

set_option autoImplicit false

/-!
Shallow embedding of `src/main.rs` of davepacheco/todoist-helper.

Conventions of the embedding:
* Rust `String` is Lean `String`; `str::starts_with` is `strStartsWith`
  (a byte/char prefix test, which coincide on the ASCII data involved).
* `BTreeMap<String, _>` is an association list kept sorted by key
  (`insertItem` is `entry(..).or_insert_with(Vec::new)` followed by `push`).
* `BTreeSet<&String>` (the `printed` set) is a list of strings in which only
  membership is ever observed.
* The Todoist backend is modelled as the list of successive page responses:
  the k-th element is the response to the request at offset `k * limit`.
  `fetch_completed_tasks` returns, besides the grouping, the list of offsets
  actually requested; `none` models a server that never produces a short page
  within the supplied list.
* The GitHub backend (`Octocrab`) is a pair of total functions returning
  `Except`; `Except.error` models any transport/API failure.
* The regex `https?://github\.com/(?P<owner>[\w-]+)/(?P<repo>[\w-]+)/(issues|pull)/(?P<number>\d+)`
  is modelled by a direct scanner: at each start position the pattern either
  matches (deterministically: the character classes of adjacent pieces are
  disjoint from the literal separators, so greedy matching needs no
  backtracking) or the scanner advances one character, and after a match the
  scan resumes at the end of that match, exactly as `captures_iter` does.
  `\w` and `\d` are modelled over ASCII.
* `u64` parsing (`parse::<u64>()`) is `parseU64`: the digit string's value if
  it is below `2 ^ 64`, `none` on overflow.
* Printed report lines are reified as `Line`; a content line additionally
  records the task id of the item that produced it, so that statements can
  speak about which task a printed line belongs to (the rendered text in the
  program is the content string only).
-/

namespace TodoistHelper

/-- One completed item from the Todoist response (struct `Item`). -/
structure Item where
  content : String
  task_id : String
  project_id : String
deriving DecidableEq

/-- Project metadata from the Todoist response (struct `Project`). -/
structure Project where
  name : String
deriving DecidableEq

/-- Response to the "get all completed items" API (struct `CompletedItems`). -/
structure CompletedItems where
  items : List Item
  projects : List (String × Project)
deriving DecidableEq

/-- Kind of a GitHub reference (enum `GitHubKind`). -/
inductive GitHubKind where
  | Issue
  | PullRequest
deriving DecidableEq

/-- A parsed link to a GitHub issue or pull request (struct `GitHubLink`). -/
structure GitHubLink where
  owner : String
  repo : String
  kind : GitHubKind
  number : Nat
deriving DecidableEq

/-- Summary of a resolved GitHub item (struct `GitHubWorkItem`). -/
structure GitHubWorkItem where
  url : String
  title : String
  label : String
deriving DecidableEq

/-- Char-list prefix test; models Rust `str::starts_with` on UTF-8 data. -/
def isPrefixOfChars : List Char → List Char → Bool
  | [], _ => true
  | _ :: _, [] => false
  | p :: ps, c :: cs => p == c && isPrefixOfChars ps cs

/-- Models `s.starts_with(p)` from Rust. -/
def strStartsWith (s p : String) : Bool :=
  isPrefixOfChars p.data s.data

/-- Strip a literal prefix from a char list, returning the remainder. -/
def stripLit : List Char → List Char → Option (List Char)
  | [], cs => some cs
  | _ :: _, [] => none
  | p :: ps, c :: cs => if c = p then stripLit ps cs else none

/-- Character class `[\w-]` of the regex, over ASCII. -/
def isWordOrHyphen (c : Char) : Bool :=
  c.isAlpha || c.isDigit || c == '_' || c == '-'

/-- Character class `\d` of the regex, over ASCII. -/
def isDigitChar (c : Char) : Bool :=
  c.isDigit

/-- Raw capture groups of one regex match, before `filter_map` validation. -/
structure RawCaps where
  owner : String
  repo : String
  kindStr : String
  numberStr : String
deriving DecidableEq

/-- Attempt to match the GitHub-link regex at the start of `cs`.
Returns the captures and the total number of characters consumed. -/
def tryMatchAt (cs : List Char) : Option (RawCaps × Nat) :=
  let scheme : Option (List Char × Nat) :=
    match stripLit "https://github.com/".data cs with
    | some rest => some (rest, 19)
    | none =>
      match stripLit "http://github.com/".data cs with
      | some rest => some (rest, 18)
      | none => none
  match scheme with
  | none => none
  | some (rest1, c0) =>
    let owner := rest1.takeWhile isWordOrHyphen
    if owner.isEmpty then none
    else
      match rest1.drop owner.length with
      | '/' :: rest2 =>
        let repo := rest2.takeWhile isWordOrHyphen
        if repo.isEmpty then none
        else
          match rest2.drop repo.length with
          | '/' :: rest3 =>
            let kindPart : Option (List Char × List Char) :=
              match stripLit "issues/".data rest3 with
              | some r => some ("issues".data, r)
              | none =>
                match stripLit "pull/".data rest3 with
                | some r => some ("pull".data, r)
                | none => none
            match kindPart with
            | none => none
            | some (kindStr, rest4) =>
              let digits := rest4.takeWhile isDigitChar
              if digits.isEmpty then none
              else
                some ({ owner := owner.asString, repo := repo.asString,
                        kindStr := kindStr.asString,
                        numberStr := digits.asString },
                      c0 + owner.length + 1 + repo.length + 1
                        + kindStr.length + 1 + digits.length)
          | _ => none
      | _ => none

/-- Scan for successive non-overlapping matches, left to right, resuming
after the end of each match (`captures_iter`). Each result is paired with
its start position. The fuel argument is an upper bound on the remaining
characters; each step consumes at least one character and one unit of fuel,
so `fuel = cs.length` always suffices. -/
def scanGo : Nat → List Char → Nat → List (Nat × RawCaps)
  | 0, _, _ => []
  | _ + 1, [], _ => []
  | fuel + 1, c :: rest, i =>
    match tryMatchAt (c :: rest) with
    | some (caps, k) =>
      (i, caps) :: scanGo fuel (rest.drop (k - 1)) (i + 1 + (k - 1))
    | none => scanGo fuel rest (i + 1)

/-- All raw matches of the regex in a content string, with start positions. -/
def scanContent (s : String) : List (Nat × RawCaps) :=
  scanGo s.data.length s.data 0

/-- Value of `u64::MAX + 1`. -/
def u64Bound : Nat := 2 ^ 64

/-- Numeric value of a digit string. -/
def digitsToNat (cs : List Char) : Nat :=
  cs.foldl (fun acc c => acc * 10 + (c.toNat - 48)) 0

/-- Models `str::parse::<u64>()` on the captured digit string. -/
def parseU64 (cs : List Char) : Option Nat :=
  if cs.isEmpty then none
  else if cs.all isDigitChar then
    if digitsToNat cs < u64Bound then some (digitsToNat cs) else none
  else none

/-- The body of the `filter_map` in `extract_github_links`: validate one
match's captures, dropping it silently on numeric overflow. -/
def capsToLink (caps : RawCaps) : Option GitHubLink :=
  match parseU64 caps.numberStr.data with
  | none => none
  | some number =>
    if caps.kindStr = "issues" then
      some { owner := caps.owner, repo := caps.repo,
             kind := GitHubKind.Issue, number := number }
    else if caps.kindStr = "pull" then
      some { owner := caps.owner, repo := caps.repo,
             kind := GitHubKind.PullRequest, number := number }
    else none

/-- Extraction from a content string (body of `Item::extract_github_links`). -/
def extractFromContent (s : String) : List GitHubLink :=
  (scanContent s).filterMap (fun p => capsToLink p.2)

/-- Models `Item::extract_github_links`. -/
def Item.extract_github_links (item : Item) : List GitHubLink :=
  extractFromContent item.content

/-- Issue metadata returned by the GitHub API (the fields used). -/
structure IssueData where
  html_url : String
  title : String
deriving DecidableEq

/-- Pull-request metadata returned by the GitHub API (the fields used);
per the remote schema both fields are optional. -/
structure PullRequestData where
  title : Option String
  html_url : Option String
deriving DecidableEq

/-- The GitHub client, modelled as an oracle: `issues`/`pulls` take owner,
repo and number; `Except.error` models any transport or API failure. -/
structure Octocrab where
  issues : String → String → Nat → Except String IssueData
  pulls : String → String → Nat → Except String PullRequestData

/-- Label `owner/repo#number` built for each reference. -/
def linkLabel (link : GitHubLink) : String :=
  link.owner ++ "/" ++ link.repo ++ "#" ++ toString link.number

/-- The loop body of `Item::fetch_github_titles`: iterate over the extracted
links, accumulating resolved items in order (`rv.push`). A failed lookup is
skipped (`continue` after a warning); a pull request with no title is a hard
failure (`ok_or_else(..)?`); a pull request with a title but no URL is
skipped. -/
def fetchTitlesGo (oc : Octocrab) (acc : List GitHubWorkItem) :
    List GitHubLink → Except String (List GitHubWorkItem)
  | [] => Except.ok acc
  | link :: rest =>
    match link.kind with
    | GitHubKind.Issue =>
      match oc.issues link.owner link.repo link.number with
      | Except.error _ => fetchTitlesGo oc acc rest
      | Except.ok issue =>
        fetchTitlesGo oc
          (acc ++ [{ label := linkLabel link, url := issue.html_url,
                     title := issue.title }]) rest
    | GitHubKind.PullRequest =>
      match oc.pulls link.owner link.repo link.number with
      | Except.error _ => fetchTitlesGo oc acc rest
      | Except.ok pr =>
        match pr.title with
        | none => Except.error ("Missing title for " ++ linkLabel link)
        | some title =>
          match pr.html_url with
          | none => fetchTitlesGo oc acc rest
          | some url =>
            fetchTitlesGo oc
              (acc ++ [{ label := linkLabel link, url := url,
                         title := title }]) rest

/-- Models `Item::fetch_github_titles`. -/
def Item.fetch_github_titles (item : Item) (oc : Octocrab) :
    Except String (List GitHubWorkItem) :=
  fetchTitlesGo oc [] item.extract_github_links

/-- The fixed page size of `fetch_completed_tasks`. -/
def limit : Nat := 200

/-- Models `BTreeMap::get` on the embedded `projects` map of a response. -/
def projectsLookup : List (String × Project) → String → Option Project
  | [], _ => none
  | (k, p) :: rest, pid => if k = pid then some p else projectsLookup rest pid

/-- Lexicographic strict order on char lists; models the `Ord` used by
`BTreeMap<String, _>` (byte-lexicographic, which on UTF-8 data coincides
with code-point lexicographic order). -/
def charsLt : List Char → List Char → Bool
  | [], [] => false
  | [], _ :: _ => true
  | _ :: _, [] => false
  | a :: as, b :: bs =>
    if a.toNat < b.toNat then true
    else if b.toNat < a.toNat then false
    else charsLt as bs

/-- Strict order on strings used for the `BTreeMap` model. -/
def strLt (s t : String) : Bool :=
  charsLt s.data t.data

/-- The grouping built by the fetcher: `BTreeMap<String, Vec<Item>>` as an
association list sorted by key. -/
abbrev Grouping := List (String × List Item)

/-- Models `rv.entry(name).or_insert_with(Vec::new)` followed by
`items.push(item)`: sorted insertion, appending to an existing entry. -/
def insertItem : Grouping → String → Item → Grouping
  | [], name, item => [(name, [item])]
  | (k, v) :: rest, name, item =>
    if strLt name k then (name, [item]) :: (k, v) :: rest
    else if name = k then (k, v ++ [item]) :: rest
    else (k, v) :: insertItem rest name item

/-- The per-page item loop of `fetch_completed_tasks`: each item whose
project id resolves in the page's `projects` map is appended to its
project's group; an unresolvable item is skipped with a warning. -/
def processPageItems (projects : List (String × Project)) :
    List Item → Grouping → Grouping
  | [], acc => acc
  | item :: rest, acc =>
    match projectsLookup projects item.project_id with
    | none => processPageItems projects rest acc
    | some project => processPageItems projects rest (insertItem acc project.name item)

/-- The pagination loop of `fetch_completed_tasks` over the list of page
responses still ahead of the current offset. Returns the grouping together
with the list of offsets requested; `none` models the server list running
out before a short page ended the loop. -/
def fetch_aux : List CompletedItems → Nat → Grouping → Option (Grouping × List Nat)
  | [], _, _ => none
  | page :: rest, offset, acc =>
    let nitems := page.items.length
    let acc2 := processPageItems page.projects page.items acc
    if nitems < limit then some (acc2, [offset])
    else
      match fetch_aux rest (offset + limit) acc2 with
      | some (r, offs) => some (r, offset :: offs)
      | none => none

/-- Models `fetch_completed_tasks`: `pages` is the backend, listing the
response to each successive offset `0, limit, 2 * limit, ...`. -/
def fetch_completed_tasks (pages : List CompletedItems) :
    Option (Grouping × List Nat) :=
  fetch_aux pages 0 []

/-- One line of the printed report. A content line also records the task id
of the item that produced it (the program renders only the text). -/
inductive Line where
  | header (text : String)
  | content (taskId : String) (text : String)
  | sub (label : String) (url : String) (title : String)
deriving DecidableEq

/-- Rendering of one resolved work item as a sub-line. -/
def workItemLine (w : GitHubWorkItem) : Line :=
  Line.sub w.label w.url w.title

/-- One of the two printing loops of `doit`: iterate over the stream's
items, skipping task ids already in `printed`, printing the content line and
then the resolved sub-lines; a resolution error aborts with the content line
already printed. Returns the updated `printed` set, the output so far and
the error, if any. -/
def runStream (oc : Octocrab) :
    List Item → List String → List Line → List String × List Line × Option String
  | [], printed, out => (printed, out, none)
  | item :: rest, printed, out =>
    if item.task_id ∈ printed then runStream oc rest printed out
    else
      let printed2 := item.task_id :: printed
      let out2 := out ++ [Line.content item.task_id item.content]
      match item.fetch_github_titles oc with
      | Except.error e => (printed2, out2, some e)
      | Except.ok links => runStream oc rest printed2 (out2 ++ links.map workItemLine)

/-- Models the `find` selecting the Reconfigurator project: the first entry
in map (key) order whose name starts with the primary label. -/
def findPrimary (grouped : Grouping) : Option (String × List Item) :=
  grouped.find? (fun kv => strStartsWith kv.1 "Oxide: Reconfigurator")

/-- Models `other_project_items`: items of every project whose name starts
with "Oxide" other than the primary one, flattened in map (key) order. -/
def otherItems (grouped : Grouping) (primaryName : String) : List Item :=
  (grouped.filterMap (fun kv =>
    if strStartsWith kv.1 "Oxide" && kv.1 != primaryName then some kv.2
    else none)).flatten

/-- Models the report-building part of `doit`, from the fetched grouping on:
select the primary project (fatal error if none is found), print its stream,
the separator, then the "other work" stream, sharing one `printed` set. -/
def doit (grouped : Grouping) (oc : Octocrab) : List Line × Option String :=
  match findPrimary grouped with
  | none => ([], some "failed to identify Reconfigurator project")
  | some (primaryName, primaryItems) =>
    let out0 := [Line.header "RECONFIGURATOR ITEMS:"]
    match runStream oc primaryItems [] out0 with
    | (_, out1, some e) => (out1, some e)
    | (printed1, out1, none) =>
      let out2 := out1 ++ [Line.header "\n\nOther work:"]
      match runStream oc (otherItems grouped primaryName) printed1 out2 with
      | (_, out3, e) => (out3, e)

/-- Number of content lines in an output attributable to the task id
`tid`. -/
def contentCount (tid : String) (out : List Line) : Nat :=
  (out.filter fun l =>
    match l with
    | Line.content t _ => t == tid
    | _ => false).length

/-- A transport/API failure of the lookup a reference's resolution
performs. -/
def transportFails (oc : Octocrab) (link : GitHubLink) : Prop :=
  match link.kind with
  | GitHubKind.Issue =>
    ∃ e, oc.issues link.owner link.repo link.number = Except.error e
  | GitHubKind.PullRequest =>
    ∃ e, oc.pulls link.owner link.repo link.number = Except.error e

/-- A GitHub oracle on which every lookup fails; fine for report runs whose
contents hold no links. -/
def ocUnused : Octocrab :=
  { issues := fun _ _ _ => Except.error "unreachable",
    pulls := fun _ _ _ => Except.error "unreachable" }

/-- Oracle for the C4 scenario: the issue lookup fails (404) except for
issue number 2. -/
def ocSecondOnly : Octocrab :=
  { issues := fun _ _ n =>
      if n = 2 then
        Except.ok { html_url := "https://github.com/acme/widget/issues/2",
                    title := "Widget two" }
      else Except.error "404",
    pulls := fun _ _ _ => Except.error "404" }

/-- The C4 scenario item: two references, of which the first will fail. -/
def itemTwoRefs : Item :=
  { content := "Fixed https://github.com/acme/widget/issues/1 and https://github.com/acme/widget/issues/2",
    task_id := "t1", project_id := "p1" }

/-- Oracle whose pull-request metadata carries no title. -/
def ocNoTitle : Octocrab :=
  { issues := fun _ _ _ => Except.error "404",
    pulls := fun _ _ _ => Except.ok { title := none, html_url := some "u" } }

/-- The C5 scenario item: a single pull-request reference. -/
def itemOnePull : Item :=
  { content := "https://github.com/acme/widget/pull/7",
    task_id := "t1", project_id := "p1" }

/-- The C9 scenario page: the completion for the "Oxide: B team" project
arrives before the one for "Oxide: A team". -/
def pageBThenA : CompletedItems :=
  { items := [{ content := "reconfig work", task_id := "tR", project_id := "pR" },
              { content := "b work", task_id := "tB", project_id := "pB" },
              { content := "a work", task_id := "tA", project_id := "pA" }],
    projects := [("pR", { name := "Oxide: Reconfigurator" }),
                 ("pB", { name := "Oxide: B team" }),
                 ("pA", { name := "Oxide: A team" })] }

/-- The (task id, text) pairs of the content lines of an output, in print
order. -/
def contentOf : List Line → List (String × String)
  | [] => []
  | Line.content t c :: rest => (t, c) :: contentOf rest
  | Line.header _ :: rest => contentOf rest
  | Line.sub _ _ _ :: rest => contentOf rest

/-- The items of a stream that actually get printed: those whose task id is
not yet in `printed`, first occurrence kept, in stream order. -/
def dedupNew (printed : List String) : List Item → List Item
  | [] => []
  | item :: rest =>
    if item.task_id ∈ printed then dedupNew printed rest
    else item :: dedupNew (item.task_id :: printed) rest

/-- The printed set after a stream: `printed` plus the task ids of the
stream's newly printed items. -/
def printedAfter (printed : List String) : List Item → List String
  | [] => printed
  | item :: rest =>
    if item.task_id ∈ printed then printedAfter printed rest
    else printedAfter (item.task_id :: printed) rest

/-- All items of the backend's pages in arrival order. -/
def allArrivals (pages : List CompletedItems) : List Item :=
  (pages.map (fun p => p.items)).flatten

-- Decidable equality for `Except`, for concrete evaluations.
deriving instance DecidableEq for Except

/-! Helper lemmas about the fetcher. -/

/-- Any successful run of the pagination loop requests its starting offset
first. -/
theorem fetch_aux_offs_head (pages : List CompletedItems) (off : Nat)
    (acc : Grouping) (r : Grouping) (offs : List Nat)
    (h : fetch_aux pages off acc = some (r, offs)) : ∃ t, offs = off :: t := by
  cases pages with
  | nil => simp [fetch_aux] at h
  | cons page rest =>
    simp only [fetch_aux] at h
    split at h
    · simp only [Option.some.injEq, Prod.mk.injEq] at h
      exact ⟨[], h.2.symm⟩
    · cases hrec : fetch_aux rest (off + limit)
          (processPageItems page.projects page.items acc) with
      | none => rw [hrec] at h; simp at h
      | some pr =>
        obtain ⟨r2, offs2⟩ := pr
        rw [hrec] at h
        simp only [Option.some.injEq, Prod.mk.injEq] at h
        exact ⟨offs2, h.2.symm⟩

/-- A page whose project map resolves nothing contributes nothing. -/
theorem processPageItems_all_missing (projects : List (String × Project))
    (items : List Item) (acc : Grouping)
    (h : ∀ item ∈ items, projectsLookup projects item.project_id = none) :
    processPageItems projects items acc = acc := by
  induction items with
  | nil => rfl
  | cons item rest ih =>
    have h1 : projectsLookup projects item.project_id = none :=
      h item (List.mem_cons_self item rest)
    simp only [processPageItems, h1]
    exact ih (fun i hi => h i (List.mem_cons_of_mem item hi))

/-- Lookups in an empty projects map always fail. -/
theorem projectsLookup_nil (pid : String) : projectsLookup [] pid = none := rfl

/-- The offsets requested depend only on the item counts of the successive
pages, never on the groupings accumulated. -/
theorem fetch_aux_offsets_congr :
    ∀ (pages pages' : List CompletedItems) (off : Nat) (acc acc' : Grouping),
      pages.map (fun p => p.items.length) = pages'.map (fun p => p.items.length) →
      (fetch_aux pages off acc).map (fun r => r.2) =
        (fetch_aux pages' off acc').map (fun r => r.2) := by
  intro pages
  induction pages with
  | nil =>
    intro pages' off acc acc' h
    cases pages' with
    | nil => rfl
    | cons p ps => simp at h
  | cons page rest ih =>
    intro pages' off acc acc' h
    cases pages' with
    | nil => simp at h
    | cons page' rest' =>
      simp only [List.map_cons, List.cons.injEq] at h
      obtain ⟨hlen, htail⟩ := h
      simp only [fetch_aux, hlen]
      split
      · rfl
      · have hrec := ih rest' (off + limit)
          (processPageItems page.projects page.items acc)
          (processPageItems page'.projects page'.items acc') htail
        cases h1 : fetch_aux rest (off + limit)
            (processPageItems page.projects page.items acc) with
        | none =>
          cases h2 : fetch_aux rest' (off + limit)
              (processPageItems page'.projects page'.items acc') with
          | none => rfl
          | some pr2 => rw [h1, h2] at hrec; simp at hrec
        | some pr1 =>
          cases h2 : fetch_aux rest' (off + limit)
              (processPageItems page'.projects page'.items acc') with
          | none => rw [h1, h2] at hrec; simp at hrec
          | some pr2 =>
            rw [h1, h2] at hrec
            simp only [Option.map_some'] at hrec ⊢
            rw [Option.some.inj hrec]

/-- C1: a page is the last page exactly when it holds strictly fewer than
`limit = 200` items; in particular a backend answering a full page at offset
0 and a short page at offset 200 is asked exactly twice, at offsets 0 and
200. -/
theorem c1_pagination_short_page :
    (∀ (page : CompletedItems) (rest : List CompletedItems) (off : Nat)
        (acc : Grouping),
      (∃ r, fetch_aux (page :: rest) off acc = some (r, [off])) ↔
        page.items.length < 200)
    ∧ ∀ (p0 p1 : CompletedItems) (rest : List CompletedItems),
        p0.items.length = 200 → p1.items.length < 200 →
        ∃ g, fetch_completed_tasks (p0 :: p1 :: rest) = some (g, [0, 200]) := by
  constructor
  · intro page rest off acc
    constructor
    · rintro ⟨r, h⟩
      by_contra hlen
      have hlen' : ¬ page.items.length < limit := hlen
      simp only [fetch_aux, if_neg hlen'] at h
      cases hrec : fetch_aux rest (off + limit)
          (processPageItems page.projects page.items acc) with
      | none => rw [hrec] at h; simp at h
      | some pr =>
        rw [hrec] at h
        obtain ⟨t, ht⟩ := fetch_aux_offs_head _ _ _ _ _ hrec
        simp only [Option.some.injEq, Prod.mk.injEq] at h
        rw [ht] at h
        simp at h
    · intro hlen
      have hlen' : page.items.length < limit := hlen
      exact ⟨processPageItems page.projects page.items acc,
        by simp [fetch_aux, if_pos hlen']⟩
  · intro p0 p1 rest h0 h1
    have h0' : ¬ p0.items.length < limit := by simp only [limit]; omega
    have h1' : p1.items.length < limit := h1
    refine ⟨processPageItems p1.projects p1.items
      (processPageItems p0.projects p0.items []), ?_⟩
    dsimp only [fetch_completed_tasks, fetch_aux]
    rw [if_neg h0', if_pos h1']
    norm_num [limit]

/-- Witness for C1 at a concrete backend: one full page of 200 items, then
an empty page. -/
theorem c1_witness :
    ∃ g, fetch_completed_tasks
      [{ items := List.replicate 200
           { content := "x", task_id := "t", project_id := "p" },
         projects := [("p", { name := "Oxide: Reconfigurator" })] },
       { items := [], projects := [] }] = some (g, [0, 200]) :=
  c1_pagination_short_page.2 _ _ []
    (List.length_replicate 200 _) (by simp)

/-- C8: an item whose project id is absent from the page's project metadata
is skipped: the grouping is as if the item were not present, the other items
of the page are still processed; consequently a (short) page containing such
an item still fetches successfully, to the same grouping. -/
theorem c8_missing_project_skipped :
    (∀ (projects : List (String × Project)) (xs1 xs2 : List Item) (bad : Item)
        (acc : Grouping),
      projectsLookup projects bad.project_id = none →
      processPageItems projects (xs1 ++ bad :: xs2) acc =
        processPageItems projects (xs1 ++ xs2) acc)
    ∧ ∀ (projects : List (String × Project)) (xs1 xs2 : List Item) (bad : Item),
        projectsLookup projects bad.project_id = none →
        (xs1 ++ bad :: xs2).length < 200 →
        fetch_completed_tasks [{ items := xs1 ++ bad :: xs2, projects := projects }] =
          fetch_completed_tasks [{ items := xs1 ++ xs2, projects := projects }] := by
  have main : ∀ (projects : List (String × Project)) (xs1 xs2 : List Item)
      (bad : Item) (acc : Grouping),
      projectsLookup projects bad.project_id = none →
      processPageItems projects (xs1 ++ bad :: xs2) acc =
        processPageItems projects (xs1 ++ xs2) acc := by
    intro projects xs1 xs2 bad acc h
    induction xs1 generalizing acc with
    | nil => simp [processPageItems, h]
    | cons x xs1' ih =>
      cases hx : projectsLookup projects x.project_id with
      | none => simp only [List.cons_append, processPageItems, hx]; exact ih _
      | some project => simp only [List.cons_append, processPageItems, hx]; exact ih _
  refine ⟨main, ?_⟩
  intro projects xs1 xs2 bad h hshort
  have hshort' : (xs1 ++ bad :: xs2).length < limit := hshort
  have hshort2 : (xs1 ++ xs2).length < limit := by
    simp only [List.length_append, List.length_cons, limit] at hshort' ⊢
    omega
  dsimp only [fetch_completed_tasks, fetch_aux]
  rw [if_pos hshort', if_pos hshort2, main _ _ _ _ _ h]

/-- Witness for C8 at a concrete page: the middle item's project id is
unresolvable, the grouping is that of the two surrounding items. -/
theorem c8_witness :
    processPageItems [("p", { name := "Oxide: Reconfigurator" })]
      [{ content := "a", task_id := "t1", project_id := "p" },
       { content := "b", task_id := "t2", project_id := "nope" },
       { content := "c", task_id := "t3", project_id := "p" }] [] =
    processPageItems [("p", { name := "Oxide: Reconfigurator" })]
      [{ content := "a", task_id := "t1", project_id := "p" },
       { content := "c", task_id := "t3", project_id := "p" }] [] :=
  c8_missing_project_skipped.1 _
    [{ content := "a", task_id := "t1", project_id := "p" }]
    [{ content := "c", task_id := "t3", project_id := "p" }] _ _ (by decide)

/-- C10: pagination termination is decided by the raw item count of each
page, before (and independently of) any dropping for missing project
metadata: a backend with the same page sizes is asked the same offsets
whatever the pages hold, and a full page of 200 items all of which are
dropped still causes a further request. -/
theorem c10_termination_uses_raw_count :
    (∀ (pages pages' : List CompletedItems),
      pages.map (fun p => p.items.length) = pages'.map (fun p => p.items.length) →
      (fetch_completed_tasks pages).map (fun r => r.2) =
        (fetch_completed_tasks pages').map (fun r => r.2))
    ∧ fetch_completed_tasks
        [{ items := List.replicate 200
             { content := "x", task_id := "t", project_id := "missing" },
           projects := [] },
         { items := [], projects := [] }] = some ([], [0, 200]) := by
  constructor
  · intro pages pages' h
    exact fetch_aux_offsets_congr pages pages' 0 [] [] h
  · have hfull : ¬ (List.replicate 200
        ({ content := "x", task_id := "t", project_id := "missing" } : Item)).length
          < limit := by rw [List.length_replicate]; simp only [limit]; omega
    have hshort : ([] : List Item).length < limit := by simp [limit]
    have hdrop : processPageItems []
        (List.replicate 200
          ({ content := "x", task_id := "t", project_id := "missing" } : Item)) [] = [] :=
      processPageItems_all_missing _ _ _ (fun i _ => projectsLookup_nil _)
    dsimp only [fetch_completed_tasks, fetch_aux]
    rw [if_neg hfull, hdrop, if_pos hshort]
    norm_num [limit, processPageItems]

/-- Witness for C10: two backends with equal page sizes but different items
are asked the same offsets. -/
theorem c10_witness :
    (fetch_completed_tasks
      [{ items := [{ content := "a", task_id := "t1", project_id := "p1" }],
         projects := [] }]).map (fun r => r.2) =
    (fetch_completed_tasks
      [{ items := [{ content := "b", task_id := "t2", project_id := "p2" }],
         projects := [("p2", { name := "Oxide: Reconfigurator" })] }]).map
        (fun r => r.2) :=
  c10_termination_uses_raw_count.1 _ _ (by decide)

/-! Helper lemmas about the scanner. -/

/-- Every match produced by the scanner starts at or after the scan
position. -/
theorem scanGo_lb :
    ∀ (fuel : Nat) (cs : List Char) (i : Nat) (p : Nat × RawCaps),
      p ∈ scanGo fuel cs i → i ≤ p.1 := by
  intro fuel
  induction fuel with
  | zero => intro cs i p hp; simp [scanGo] at hp
  | succ fuel ih =>
    intro cs i p hp
    cases cs with
    | nil => simp [scanGo] at hp
    | cons c rest =>
      simp only [scanGo] at hp
      cases htm : tryMatchAt (c :: rest) with
      | none =>
        rw [htm] at hp
        have := ih rest (i + 1) p hp
        omega
      | some ck =>
        obtain ⟨caps, k⟩ := ck
        rw [htm] at hp
        rcases List.mem_cons.mp hp with heq | hmem
        · rw [heq]
        · have := ih (rest.drop (k - 1)) (i + 1 + (k - 1)) p hmem
          omega

/-- The start positions of the scanner's matches are strictly increasing:
matches are reported in left-to-right order of their first character. -/
theorem scanGo_chain :
    ∀ (fuel : Nat) (cs : List Char) (i : Nat),
      List.Chain' (fun a b => a.1 < b.1) (scanGo fuel cs i) := by
  intro fuel
  induction fuel with
  | zero => intro cs i; simp [scanGo]
  | succ fuel ih =>
    intro cs i
    cases cs with
    | nil => simp [scanGo]
    | cons c rest =>
      simp only [scanGo]
      cases htm : tryMatchAt (c :: rest) with
      | none => exact ih rest (i + 1)
      | some ck =>
        obtain ⟨caps, k⟩ := ck
        refine List.chain'_cons'.mpr ⟨?_, ih _ _⟩
        intro y hy
        have hmem : y ∈ scanGo fuel (rest.drop (k - 1)) (i + 1 + (k - 1)) :=
          List.mem_of_mem_head? hy
        have := scanGo_lb fuel _ _ y hmem
        omega

/-- If the pattern matches at no suffix of `cs`, the scan finds nothing. -/
theorem scanGo_all_none :
    ∀ (cs : List Char) (fuel i : Nat),
      (cs.tails.all fun t => (tryMatchAt t).isNone) = true →
      scanGo fuel cs i = [] := by
  intro cs
  induction cs with
  | nil => intro fuel i _; cases fuel <;> rfl
  | cons c rest ih =>
    intro fuel i h
    cases fuel with
    | zero => rfl
    | succ fuel =>
      rw [List.tails_cons, List.all_cons, Bool.and_eq_true] at h
      have hnone : tryMatchAt (c :: rest) = none :=
        Option.isNone_iff_eq_none.mp h.1
      simp only [scanGo, hnone]
      exact ih fuel (i + 1) h.2

/-- The validated number of any yielded reference is below `2 ^ 64`. -/
theorem parseU64_lt (cs : List Char) (n : Nat) (h : parseU64 cs = some n) :
    n < u64Bound := by
  simp only [parseU64] at h
  split at h
  · exact absurd h (by simp)
  · split at h
    · split at h
      · cases h; assumption
      · exact absurd h (by simp)
    · exact absurd h (by simp)

/-- The `filter_map` stage only yields numbers below `2 ^ 64`. -/
theorem capsToLink_number_lt (caps : RawCaps) (lk : GitHubLink)
    (h : capsToLink caps = some lk) : lk.number < u64Bound := by
  unfold capsToLink at h
  split at h
  · exact absurd h (by simp)
  next n heq =>
    split at h
    · obtain rfl := Option.some.inj h
      exact parseU64_lt _ _ heq
    · split at h
      · obtain rfl := Option.some.inj h
        exact parseU64_lt _ _ heq
      · exact absurd h (by simp)

/-- C6: extraction reports references in left-to-right order of first
character match (strictly increasing start positions), yields nothing on a
string with no match anywhere, and preserves duplicates: the same URL twice
yields two references with identical fields. -/
theorem c6_extraction_order_duplicates_empty :
    (∀ s : String, List.Chain' (fun a b => a.1 < b.1) (scanContent s))
    ∧ (∀ s : String,
        (s.data.tails.all fun t => (tryMatchAt t).isNone) = true →
        extractFromContent s = [])
    ∧ extractFromContent
        "https://github.com/acme/widget/issues/42 and https://github.com/acme/widget/issues/42" =
      [{ owner := "acme", repo := "widget", kind := GitHubKind.Issue, number := 42 },
       { owner := "acme", repo := "widget", kind := GitHubKind.Issue, number := 42 }] := by
  refine ⟨fun s => scanGo_chain _ _ _, fun s h => ?_, by decide⟩
  unfold extractFromContent scanContent
  rw [scanGo_all_none s.data s.data.length 0 h]
  rfl

/-- Witness for C6 at concrete strings: order on a two-link string, and
emptiness of extraction from a plain word. -/
theorem c6_witness :
    List.Chain' (fun a b => a.1 < b.1)
      (scanContent "https://github.com/a/b/pull/1 https://github.com/a/b/issues/2")
    ∧ extractFromContent "status update" = [] :=
  ⟨c6_extraction_order_duplicates_empty.1 _,
   c6_extraction_order_duplicates_empty.2.1 "status update" (by decide)⟩

/-- C7 counterexample: the regex accepts the digit string `0`, so extraction
can yield a reference whose number is `0`, which is not a positive
integer. -/
theorem c7_counterexample_zero_number :
    extractFromContent "https://github.com/a/b/issues/0" =
      [{ owner := "a", repo := "b", kind := GitHubKind.Issue, number := 0 }]
    ∧ ¬ (∀ lk ∈ extractFromContent "https://github.com/a/b/issues/0",
          0 < lk.number) := by
  refine ⟨by decide, ?_⟩
  intro h
  have := h { owner := "a", repo := "b", kind := GitHubKind.Issue, number := 0 }
    (by decide)
  simp at this

/-- C7 (amended): every yielded reference's number is a natural number that
fits in a `u64` (it may be `0`); a digit sequence whose value overflows the
`u64` bound is silently dropped as a non-match, and extraction is a total
function, never an error. -/
theorem c7_number_bound_overflow_dropped :
    (∀ (s : String) (lk : GitHubLink),
      lk ∈ extractFromContent s → lk.number < 2 ^ 64)
    ∧ extractFromContent
        "see https://github.com/acme/widget/issues/99999999999999999999" = [] := by
  refine ⟨fun s lk hlk => ?_, by decide⟩
  unfold extractFromContent at hlk
  obtain ⟨p, _, hp⟩ := List.mem_filterMap.mp hlk
  exact capsToLink_number_lt p.2 lk hp

/-- Witness for C7 at a concrete string and reference. -/
theorem c7_witness :
    ({ owner := "a", repo := "b", kind := GitHubKind.Issue, number := 5 } :
      GitHubLink).number < 2 ^ 64 :=
  c7_number_bound_overflow_dropped.1 "https://github.com/a/b/issues/5" _
    (by decide)

/-! Helper lemmas about the report builder. -/

/-- Content counting distributes over appending output. -/
theorem contentCount_append (tid : String) (a b : List Line) :
    contentCount tid (a ++ b) = contentCount tid a + contentCount tid b := by
  simp [contentCount, List.filter_append]

/-- Sub-lines are not content lines. -/
theorem contentCount_workItems (tid : String) (links : List GitHubWorkItem) :
    contentCount tid (links.map workItemLine) = 0 := by
  induction links with
  | nil => rfl
  | cons l rest ih => simp [contentCount, workItemLine, List.filter]

/-- A content line of another task does not count. -/
theorem contentCount_single_ne (tid t c : String) (h : t ≠ tid) :
    contentCount tid [Line.content t c] = 0 := by
  have hb : (t == tid) = false := beq_eq_false_iff_ne.mpr h
  simp [contentCount, List.filter, hb]

/-- A content line of the task itself counts once. -/
theorem contentCount_single_eq (tid c : String) :
    contentCount tid [Line.content tid c] = 1 := by
  simp [contentCount, List.filter]

/-- Header lines are not content lines. -/
theorem contentCount_header (tid t : String) :
    contentCount tid [Line.header t] = 0 := rfl

/-- The printing-loop invariant: if the output so far holds no content line
for an unprinted task id and at most one for any id, the same holds after
the loop, and the printed set only grows. -/
theorem runStream_inv (oc : Octocrab) (tid : String) :
    ∀ (items : List Item) (printed : List String) (out : List Line),
      (tid ∉ printed → contentCount tid out = 0) →
      contentCount tid out ≤ 1 →
      ((tid ∉ (runStream oc items printed out).1 →
          contentCount tid (runStream oc items printed out).2.1 = 0)
        ∧ contentCount tid (runStream oc items printed out).2.1 ≤ 1
        ∧ (tid ∈ printed → tid ∈ (runStream oc items printed out).1)) := by
  intro items
  induction items with
  | nil => intro printed out h0 h1; exact ⟨h0, h1, fun h => h⟩
  | cons item rest ih =>
    intro printed out h0 h1
    by_cases hmem : item.task_id ∈ printed
    · simp only [runStream, if_pos hmem]
      exact ih printed out h0 h1
    · have hne0 : tid ∉ item.task_id :: printed →
          contentCount tid (out ++ [Line.content item.task_id item.content]) = 0 := by
        intro hn
        rw [List.mem_cons, not_or] at hn
        rw [contentCount_append, h0 hn.2,
          contentCount_single_ne _ _ _ (fun hh => hn.1 hh.symm)]
      have hle1 :
          contentCount tid (out ++ [Line.content item.task_id item.content]) ≤ 1 := by
        by_cases heq : tid = item.task_id
        · subst heq
          rw [contentCount_append, h0 hmem, contentCount_single_eq]
        · rw [contentCount_append,
            contentCount_single_ne _ _ _ (fun hh => heq hh.symm)]
          omega
      simp only [runStream, if_neg hmem]
      cases hft : item.fetch_github_titles oc with
      | error e =>
        simp only [hft]
        exact ⟨hne0, hle1, fun h => List.mem_cons_of_mem _ h⟩
      | ok links =>
        simp only [hft]
        have h0'' : tid ∉ item.task_id :: printed →
            contentCount tid ((out ++ [Line.content item.task_id item.content])
              ++ links.map workItemLine) = 0 := by
          intro hn
          rw [contentCount_append, contentCount_workItems, hne0 hn]
        have h1'' :
            contentCount tid ((out ++ [Line.content item.task_id item.content])
              ++ links.map workItemLine) ≤ 1 := by
          rw [contentCount_append, contentCount_workItems]
          omega
        have hrec := ih (item.task_id :: printed)
          ((out ++ [Line.content item.task_id item.content]) ++ links.map workItemLine)
          h0'' h1''
        exact ⟨hrec.1, hrec.2.1,
          fun h => hrec.2.2 (List.mem_cons_of_mem _ h)⟩

/-- C2: within one report run, at most one content line is printed for any
task identifier, across both streams combined. -/
theorem c2_task_reported_at_most_once (grouped : Grouping) (oc : Octocrab)
    (tid : String) : contentCount tid (doit grouped oc).1 ≤ 1 := by
  unfold doit
  cases hp : findPrimary grouped with
  | none => simp [contentCount]
  | some pk =>
    obtain ⟨pname, pitems⟩ := pk
    dsimp only
    have h1 := runStream_inv oc tid pitems []
      [Line.header "RECONFIGURATOR ITEMS:"] (fun _ => rfl)
      (by rw [contentCount_header]; omega)
    rcases hr1 : runStream oc pitems [] [Line.header "RECONFIGURATOR ITEMS:"]
      with ⟨printed1, out1, e1⟩
    rw [hr1] at h1
    cases e1 with
    | some e => simpa using h1.2.1
    | none =>
      dsimp only
      have h0' : tid ∉ printed1 →
          contentCount tid (out1 ++ [Line.header "\n\nOther work:"]) = 0 := by
        intro hn
        rw [contentCount_append, h1.1 hn, contentCount_header]
      have h1' : contentCount tid (out1 ++ [Line.header "\n\nOther work:"]) ≤ 1 := by
        rw [contentCount_append, contentCount_header]
        simpa using h1.2.1
      have h2 := runStream_inv oc tid (otherItems grouped pname) printed1
        (out1 ++ [Line.header "\n\nOther work:"]) h0' h1'
      rcases hr2 : runStream oc (otherItems grouped pname) printed1
        (out1 ++ [Line.header "\n\nOther work:"]) with ⟨printed2, out2, e2⟩
      rw [hr2] at h2
      simpa using h2.2.1

/-- Witness for C2 at a concrete grouping in which three completion items
share the task id `t1` across both streams. -/
theorem c2_witness :
    contentCount "t1" (doit
      [("Oxide: Reconfigurator",
        [{ content := "x", task_id := "t1", project_id := "p1" },
         { content := "x again", task_id := "t1", project_id := "p1" }]),
       ("Oxide: other", [{ content := "y", task_id := "t1", project_id := "p2" }])]
      ocUnused).1 ≤ 1 :=
  c2_task_reported_at_most_once _ ocUnused "t1"

/-- C3 counterexample: with two projects matching the primary predicate,
building the report does not fail: it silently selects the first match in
map order ("alpha" is reported under the primary section, and the second
matching project's items land in the "other work" section). -/
theorem c3_counterexample_two_matches :
    (doit [("Oxide: Reconfigurator A",
            [{ content := "alpha", task_id := "t1", project_id := "p1" }]),
           ("Oxide: Reconfigurator B",
            [{ content := "beta", task_id := "t2", project_id := "p2" }])]
      ocUnused).2 = none
    ∧ findPrimary [("Oxide: Reconfigurator A",
        [{ content := "alpha", task_id := "t1", project_id := "p1" }]),
       ("Oxide: Reconfigurator B",
        [{ content := "beta", task_id := "t2", project_id := "p2" }])] =
      some ("Oxide: Reconfigurator A",
        [{ content := "alpha", task_id := "t1", project_id := "p1" }]) := by
  exact ⟨by decide, by decide⟩

/-- C3 (amended): when no project matches the primary predicate, building
the report fails with the fatal error; when one or more match, the first
match in map (key) order is selected, without any ambiguity check. -/
theorem c3_zero_matches_fatal_first_selected :
    (∀ (grouped : Grouping) (oc : Octocrab),
      (∀ kv ∈ grouped, strStartsWith kv.1 "Oxide: Reconfigurator" = false) →
      doit grouped oc = ([], some "failed to identify Reconfigurator project"))
    ∧ ∀ (gs1 : Grouping) (kv : String × List Item) (gs2 : Grouping),
        (∀ kv2 ∈ gs1, strStartsWith kv2.1 "Oxide: Reconfigurator" = false) →
        strStartsWith kv.1 "Oxide: Reconfigurator" = true →
        findPrimary (gs1 ++ kv :: gs2) = some kv := by
  constructor
  · intro grouped oc h
    have hfind : findPrimary grouped = none := by
      unfold findPrimary
      apply List.find?_eq_none.mpr
      intro kv hkv
      simp [h kv hkv]
    unfold doit
    rw [hfind]
  · intro gs1 kv gs2 hnone hkv
    induction gs1 with
    | nil =>
      unfold findPrimary
      rw [List.nil_append]
      exact List.find?_cons_of_pos _ hkv
    | cons kv2 rest ih =>
      have h2 : strStartsWith kv2.1 "Oxide: Reconfigurator" = false :=
        hnone kv2 (List.mem_cons_self _ _)
      have hrest := ih (fun kv3 h3 => hnone kv3 (List.mem_cons_of_mem _ h3))
      unfold findPrimary at hrest ⊢
      rw [List.cons_append, List.find?_cons_of_neg _ (by simp [h2])]
      exact hrest

/-- Witness for C3 at concrete groupings: no match is fatal; the single
match after a non-matching entry is selected. -/
theorem c3_witness :
    doit [("Personal", [])] ocUnused =
      ([], some "failed to identify Reconfigurator project")
    ∧ findPrimary [("Personal", []), ("Oxide: Reconfigurator", [])] =
      some ("Oxide: Reconfigurator", []) :=
  ⟨c3_zero_matches_fatal_first_selected.1 _ _ (by decide),
   c3_zero_matches_fatal_first_selected.2 [("Personal", [])] _ [] (by decide)
     (by decide)⟩

/-- C4: a transport/API failure while resolving one reference only omits
that reference: the loop proceeds with the remaining references of the same
item; concretely, an item with two references of which the first fails (404)
and the second succeeds yields a report with the content line, exactly one
resolved sub-line, and no error. -/
theorem c4_resolution_failure_isolation :
    (∀ (oc : Octocrab) (acc : List GitHubWorkItem) (link : GitHubLink)
        (rest : List GitHubLink),
      transportFails oc link →
      fetchTitlesGo oc acc (link :: rest) = fetchTitlesGo oc acc rest)
    ∧ doit [("Oxide: Reconfigurator", [itemTwoRefs])] ocSecondOnly =
        ([Line.header "RECONFIGURATOR ITEMS:",
          Line.content "t1"
            "Fixed https://github.com/acme/widget/issues/1 and https://github.com/acme/widget/issues/2",
          Line.sub "acme/widget#2" "https://github.com/acme/widget/issues/2"
            "Widget two",
          Line.header "\n\nOther work:"], none) := by
  constructor
  · intro oc acc link rest htf
    obtain ⟨ow, rp, kind, n⟩ := link
    cases kind with
    | Issue =>
      obtain ⟨e, he⟩ := htf
      simp only [fetchTitlesGo, he]
    | PullRequest =>
      obtain ⟨e, he⟩ := htf
      simp only [fetchTitlesGo, he]
  · decide

/-- Witness for C4 at a concrete failing lookup. -/
theorem c4_witness :
    fetchTitlesGo ocSecondOnly []
      [{ owner := "acme", repo := "widget", kind := GitHubKind.Issue, number := 1 },
       { owner := "acme", repo := "widget", kind := GitHubKind.Issue, number := 2 }] =
    fetchTitlesGo ocSecondOnly []
      [{ owner := "acme", repo := "widget", kind := GitHubKind.Issue, number := 2 }] :=
  c4_resolution_failure_isolation.1 ocSecondOnly [] _ _ ⟨"404", rfl⟩

/-- C5 counterexample: a pull-request reference whose metadata carries no
title is a hard failure, not a skip: `fetch_github_titles` returns an error
and the report run aborts after the content line. -/
theorem c5_counterexample_missing_title :
    itemOnePull.fetch_github_titles ocNoTitle =
      Except.error "Missing title for acme/widget#7"
    ∧ doit [("Oxide: Reconfigurator", [itemOnePull])] ocNoTitle =
      ([Line.header "RECONFIGURATOR ITEMS:",
        Line.content "t1" "https://github.com/acme/widget/pull/7"],
       some "Missing title for acme/widget#7") := by
  exact ⟨by decide, by decide⟩

/-- C5 (amended): a pull request with no title makes resolution fail hard,
aborting the whole lookup with a "Missing title" error, whereas a pull
request with a title but no URL is skipped with a warning, the loop
continuing with the remaining references. -/
theorem c5_missing_title_fatal_missing_url_skip :
    (∀ (oc : Octocrab) (acc : List GitHubWorkItem) (link : GitHubLink)
        (rest : List GitHubLink) (pr : PullRequestData),
      link.kind = GitHubKind.PullRequest →
      oc.pulls link.owner link.repo link.number = Except.ok pr →
      pr.title = none →
      fetchTitlesGo oc acc (link :: rest) =
        Except.error ("Missing title for " ++ linkLabel link))
    ∧ ∀ (oc : Octocrab) (acc : List GitHubWorkItem) (link : GitHubLink)
        (rest : List GitHubLink) (pr : PullRequestData) (t : String),
        link.kind = GitHubKind.PullRequest →
        oc.pulls link.owner link.repo link.number = Except.ok pr →
        pr.title = some t → pr.html_url = none →
        fetchTitlesGo oc acc (link :: rest) = fetchTitlesGo oc acc rest := by
  constructor
  · intro oc acc link rest pr hkind hpulls htitle
    obtain ⟨ow, rp, kind, n⟩ := link
    cases kind with
    | Issue => exact absurd hkind (by simp)
    | PullRequest => simp only [fetchTitlesGo, hpulls, htitle]
  · intro oc acc link rest pr t hkind hpulls htitle hurl
    obtain ⟨ow, rp, kind, n⟩ := link
    cases kind with
    | Issue => exact absurd hkind (by simp)
    | PullRequest => simp only [fetchTitlesGo, hpulls, htitle, hurl]

/-- Witness for C5 at concrete metadata: no title errors; title without URL
skips. -/
theorem c5_witness :
    fetchTitlesGo ocNoTitle []
      [{ owner := "acme", repo := "widget", kind := GitHubKind.PullRequest,
         number := 7 }] = Except.error "Missing title for acme/widget#7"
    ∧ fetchTitlesGo
        { issues := fun _ _ _ => Except.error "404",
          pulls := fun _ _ _ => Except.ok { title := some "T", html_url := none } }
        [] [{ owner := "acme", repo := "widget", kind := GitHubKind.PullRequest,
              number := 7 }] =
      fetchTitlesGo
        { issues := fun _ _ _ => Except.error "404",
          pulls := fun _ _ _ => Except.ok { title := some "T", html_url := none } }
        [] [] :=
  ⟨c5_missing_title_fatal_missing_url_skip.1 ocNoTitle [] _ [] _ rfl rfl rfl,
   c5_missing_title_fatal_missing_url_skip.2 _ [] _ []
     { title := some "T", html_url := none } "T" rfl rfl rfl rfl⟩

/-! Helper lemmas about the key order of the grouping. -/

/-- Characters with equal code points are equal. -/
theorem char_eq_of_toNat_eq (a b : Char) (h : a.toNat = b.toNat) : a = b :=
  Char.eq_of_val_eq (UInt32.ext h)

/-- Unequal char lists compare strictly one way or the other. -/
theorem charsLt_connex :
    ∀ (as bs : List Char), charsLt as bs = false → as ≠ bs →
      charsLt bs as = true := by
  intro as
  induction as with
  | nil =>
    intro bs h hne
    cases bs with
    | nil => exact absurd rfl hne
    | cons b bs2 => simp [charsLt] at h
  | cons a as2 ih =>
    intro bs h hne
    cases bs with
    | nil => rfl
    | cons b bs2 =>
      simp only [charsLt] at h ⊢
      by_cases h1 : a.toNat < b.toNat
      · rw [if_pos h1] at h
        exact absurd h (by simp)
      · rw [if_neg h1] at h
        by_cases h2 : b.toNat < a.toNat
        · rw [if_pos h2]
        · rw [if_neg h2] at h
          rw [if_neg (fun hc => h1 hc), if_neg (fun hc => h2 hc)]
          have hab : a = b := char_eq_of_toNat_eq a b (by omega)
          subst hab
          exact ih bs2 h (fun hc => hne (by rw [hc]))

/-- Strings with equal character data are equal. -/
theorem string_eq_of_data_eq (s t : String) (h : s.data = t.data) : s = t := by
  cases s
  cases t
  exact congrArg String.mk h

/-- Unequal strings compare strictly one way or the other. -/
theorem strLt_connex (s t : String) (h : strLt s t = false) (hne : s ≠ t) :
    strLt t s = true :=
  charsLt_connex s.data t.data h
    (fun hc => hne (string_eq_of_data_eq s t hc))

/-- Sorted insertion preserves the strictly-increasing key order of the
grouping. -/
theorem insertItem_chain (name : String) (item : Item) :
    ∀ (g : Grouping),
      List.Chain' (fun a b => strLt a.1 b.1 = true) g →
      List.Chain' (fun a b => strLt a.1 b.1 = true) (insertItem g name item) := by
  intro g
  induction g with
  | nil => intro h; simp [insertItem]
  | cons kv rest ih =>
    intro h
    obtain ⟨k, v⟩ := kv
    simp only [insertItem]
    by_cases h1 : strLt name k
    · rw [if_pos h1]
      refine List.chain'_cons'.mpr ⟨?_, h⟩
      intro y hy
      simp only [List.head?_cons, Option.mem_def, Option.some.injEq] at hy
      rw [← hy]
      exact h1
    · rw [if_neg h1]
      by_cases h2 : name = k
      · rw [if_pos h2]
        rw [List.chain'_cons'] at h ⊢
        exact ⟨fun y hy => h.1 y hy, h.2⟩
      · rw [if_neg h2]
        rw [List.chain'_cons'] at h
        refine List.chain'_cons'.mpr ⟨?_, ih h.2⟩
        intro y hy
        cases rest with
        | nil =>
          simp only [insertItem, List.head?_cons, Option.mem_def,
            Option.some.injEq] at hy
          rw [← hy]
          exact strLt_connex name k (by simpa using h1) h2
        | cons kv2 rest2 =>
          obtain ⟨k2, v2⟩ := kv2
          simp only [insertItem] at hy
          by_cases h3 : strLt name k2
          · rw [if_pos h3] at hy
            simp only [List.head?_cons, Option.mem_def, Option.some.injEq] at hy
            rw [← hy]
            exact strLt_connex name k (by simpa using h1) h2
          · rw [if_neg h3] at hy
            by_cases h4 : name = k2
            · rw [if_pos h4] at hy
              simp only [List.head?_cons, Option.mem_def, Option.some.injEq] at hy
              rw [← hy]
              exact h.1 (k2, v2) (by simp)
            · rw [if_neg h4] at hy
              simp only [List.head?_cons, Option.mem_def, Option.some.injEq] at hy
              rw [← hy]
              exact h.1 (k2, v2) (by simp)

/-- Processing a page's items preserves the key order of the grouping. -/
theorem processPageItems_chain (projects : List (String × Project)) :
    ∀ (items : List Item) (acc : Grouping),
      List.Chain' (fun a b => strLt a.1 b.1 = true) acc →
      List.Chain' (fun a b => strLt a.1 b.1 = true)
        (processPageItems projects items acc) := by
  intro items
  induction items with
  | nil => intro acc h; exact h
  | cons item rest ih =>
    intro acc h
    cases hx : projectsLookup projects item.project_id with
    | none =>
      simp only [processPageItems, hx]
      exact ih acc h
    | some project =>
      simp only [processPageItems, hx]
      exact ih _ (insertItem_chain _ _ _ h)

/-- The pagination loop preserves the key order of the grouping. -/
theorem fetch_aux_chain :
    ∀ (pages : List CompletedItems) (off : Nat) (acc : Grouping)
      (g : Grouping) (offs : List Nat),
      List.Chain' (fun a b => strLt a.1 b.1 = true) acc →
      fetch_aux pages off acc = some (g, offs) →
      List.Chain' (fun a b => strLt a.1 b.1 = true) g := by
  intro pages
  induction pages with
  | nil => intro off acc g offs hacc h; simp [fetch_aux] at h
  | cons page rest ih =>
    intro off acc g offs hacc h
    simp only [fetch_aux] at h
    split at h
    · simp only [Option.some.injEq, Prod.mk.injEq] at h
      rw [← h.1]
      exact processPageItems_chain _ _ _ hacc
    · cases hrec : fetch_aux rest (off + limit)
          (processPageItems page.projects page.items acc) with
      | none => rw [hrec] at h; simp at h
      | some pr =>
        obtain ⟨r2, offs2⟩ := pr
        rw [hrec] at h
        simp only [Option.some.injEq, Prod.mk.injEq] at h
        rw [← h.1]
        exact ih (off + limit) _ r2 offs2
          (processPageItems_chain _ _ _ hacc) hrec

/-- The printing loop only appends to the output. -/
theorem runStream_out_extend (oc : Octocrab) :
    ∀ (items : List Item) (printed : List String) (out : List Line),
      ∃ t, (runStream oc items printed out).2.1 = out ++ t := by
  intro items
  induction items with
  | nil => intro printed out; exact ⟨[], by simp [runStream]⟩
  | cons item rest ih =>
    intro printed out
    by_cases hmem : item.task_id ∈ printed
    · simp only [runStream, if_pos hmem]
      exact ih printed out
    · simp only [runStream, if_neg hmem]
      cases hft : item.fetch_github_titles oc with
      | error e =>
        exact ⟨[Line.content item.task_id item.content], rfl⟩
      | ok links =>
        obtain ⟨t, ht⟩ := ih (item.task_id :: printed)
          ((out ++ [Line.content item.task_id item.content]) ++ links.map workItemLine)
        refine ⟨[Line.content item.task_id item.content] ++ links.map workItemLine ++ t, ?_⟩
        dsimp only
        rw [ht]
        simp

/-- Content counting of the output: appending splits. -/
theorem contentOf_append :
    ∀ (a b : List Line), contentOf (a ++ b) = contentOf a ++ contentOf b := by
  intro a b
  induction a with
  | nil => rfl
  | cons l rest ih =>
    cases l with
    | header t => simpa [contentOf] using ih
    | content t c => simpa [contentOf] using ih
    | sub l u t => simpa [contentOf] using ih

/-- Sub-lines contribute no content pairs. -/
theorem contentOf_workItems (links : List GitHubWorkItem) :
    contentOf (links.map workItemLine) = [] := by
  induction links with
  | nil => rfl
  | cons l rest ih => simpa [contentOf, workItemLine] using ih

/-- Exact output of an error-free printing loop: the content lines appended
are precisely the deduplicated stream items, in stream order, and the
printed set afterwards is `printedAfter`. -/
theorem runStream_success_spec (oc : Octocrab) :
    ∀ (items : List Item) (printed : List String) (out : List Line)
      (printed2 : List String) (out2 : List Line),
      runStream oc items printed out = (printed2, out2, none) →
      contentOf out2 = contentOf out
          ++ (dedupNew printed items).map (fun it => (it.task_id, it.content))
        ∧ printed2 = printedAfter printed items := by
  intro items
  induction items with
  | nil =>
    intro printed out printed2 out2 h
    simp only [runStream, Prod.mk.injEq] at h
    obtain ⟨h1, h2, -⟩ := h
    subst h1
    subst h2
    simp [dedupNew, printedAfter]
  | cons item rest ih =>
    intro printed out printed2 out2 h
    by_cases hmem : item.task_id ∈ printed
    · simp only [runStream, if_pos hmem] at h
      have := ih printed out printed2 out2 h
      simpa only [dedupNew, printedAfter, if_pos hmem] using this
    · simp only [runStream, if_neg hmem] at h
      cases hft : item.fetch_github_titles oc with
      | error e =>
        simp only [hft] at h
        simp at h
      | ok links =>
        simp only [hft] at h
        have hrec := ih (item.task_id :: printed)
          ((out ++ [Line.content item.task_id item.content]) ++ links.map workItemLine)
          printed2 out2 h
        constructor
        · rw [hrec.1, contentOf_append, contentOf_append, contentOf_workItems]
          simp only [dedupNew, if_neg hmem, List.map_cons, contentOf]
          simp
        · rw [hrec.2]
          simp only [printedAfter, if_neg hmem]

/-- Membership after a sorted insertion: every entry either was already
present or is the inserted key with the item appended to its old (possibly
empty) list. -/
theorem mem_insertItem :
    ∀ (g : Grouping) (name : String) (item : Item) (kv : String × List Item),
      kv ∈ insertItem g name item →
      kv ∈ g ∨ (kv.1 = name
        ∧ ∃ old, kv.2 = old ++ [item] ∧ ((name, old) ∈ g ∨ old = [])) := by
  intro g name item
  induction g with
  | nil =>
    intro kv hkv
    simp only [insertItem, List.mem_singleton] at hkv
    subst hkv
    exact Or.inr ⟨rfl, [], rfl, Or.inr rfl⟩
  | cons hd rest ih =>
    obtain ⟨k, v⟩ := hd
    intro kv hkv
    simp only [insertItem] at hkv
    by_cases h1 : strLt name k
    · rw [if_pos h1] at hkv
      rcases List.mem_cons.mp hkv with heq | hmem
      · subst heq
        exact Or.inr ⟨rfl, [], rfl, Or.inr rfl⟩
      · exact Or.inl hmem
    · rw [if_neg h1] at hkv
      by_cases h2 : name = k
      · rw [if_pos h2] at hkv
        rcases List.mem_cons.mp hkv with heq | hmem
        · subst heq
          refine Or.inr ⟨h2.symm, v, rfl, Or.inl ?_⟩
          rw [h2]
          exact List.mem_cons_self _ _
        · exact Or.inl (List.mem_cons_of_mem _ hmem)
      · rw [if_neg h2] at hkv
        rcases List.mem_cons.mp hkv with heq | hmem
        · subst heq
          exact Or.inl (List.mem_cons_self _ _)
        · rcases ih kv hmem with hin | ⟨hk, old, hold, hin2⟩
          · exact Or.inl (List.mem_cons_of_mem _ hin)
          · refine Or.inr ⟨hk, old, hold, ?_⟩
            rcases hin2 with hin3 | hnil
            · exact Or.inl (List.mem_cons_of_mem _ hin3)
            · exact Or.inr hnil

/-- Processing a page preserves the invariant that every entry's item list
is a sublist of the items processed so far, in arrival order. -/
theorem processPageItems_sublist (projects : List (String × Project)) :
    ∀ (items : List Item) (acc : Grouping) (processed : List Item),
      (∀ kv ∈ acc, List.Sublist kv.2 processed) →
      ∀ kv ∈ processPageItems projects items acc,
        List.Sublist kv.2 (processed ++ items) := by
  intro items
  induction items with
  | nil =>
    intro acc processed hacc kv hkv
    simpa using hacc kv hkv
  | cons item rest ih =>
    intro acc processed hacc kv hkv
    cases hx : projectsLookup projects item.project_id with
    | none =>
      simp only [processPageItems, hx] at hkv
      have hacc2 : ∀ kv2 ∈ acc, List.Sublist kv2.2 (processed ++ [item]) :=
        fun kv2 h2 => (hacc kv2 h2).trans (List.sublist_append_left _ _)
      have := ih acc (processed ++ [item]) hacc2 kv hkv
      simpa [List.append_assoc] using this
    | some project =>
      simp only [processPageItems, hx] at hkv
      have hacc2 : ∀ kv2 ∈ insertItem acc project.name item,
          List.Sublist kv2.2 (processed ++ [item]) := by
        intro kv2 h2
        rcases mem_insertItem acc project.name item kv2 h2
          with hin | ⟨hk, old, hold, hin2⟩
        · exact (hacc kv2 hin).trans (List.sublist_append_left _ _)
        · rw [hold]
          rcases hin2 with hin3 | hnil
          · exact List.Sublist.append (hacc (project.name, old) hin3)
              (List.Sublist.refl _)
          · rw [hnil]
            exact List.Sublist.append (List.nil_sublist _) (List.Sublist.refl _)
      have := ih _ (processed ++ [item]) hacc2 kv hkv
      simpa [List.append_assoc] using this

/-- Over the whole pagination loop, every entry's item list is a sublist of
the arrival sequence of the backend's items. -/
theorem fetch_aux_sublist :
    ∀ (pages : List CompletedItems) (off : Nat) (acc : Grouping)
      (prev : List Item) (g : Grouping) (offs : List Nat),
      (∀ kv ∈ acc, List.Sublist kv.2 prev) →
      fetch_aux pages off acc = some (g, offs) →
      ∀ kv ∈ g,
        List.Sublist kv.2 (prev ++ (pages.map (fun p => p.items)).flatten) := by
  intro pages
  induction pages with
  | nil => intro off acc prev g offs hacc h; simp [fetch_aux] at h
  | cons page rest ih =>
    intro off acc prev g offs hacc h
    simp only [fetch_aux] at h
    have hacc2 : ∀ kv ∈ processPageItems page.projects page.items acc,
        List.Sublist kv.2 (prev ++ page.items) :=
      fun kv hkv =>
        processPageItems_sublist page.projects page.items acc prev hacc kv hkv
    have hflat : ((page :: rest).map (fun p => p.items)).flatten
        = page.items ++ (rest.map (fun p => p.items)).flatten := by simp
    split at h
    · simp only [Option.some.injEq, Prod.mk.injEq] at h
      intro kv hkv
      rw [← h.1] at hkv
      rw [hflat, ← List.append_assoc]
      exact (hacc2 kv hkv).trans (List.sublist_append_left _ _)
    · cases hrec : fetch_aux rest (off + limit)
          (processPageItems page.projects page.items acc) with
      | none => rw [hrec] at h; simp at h
      | some pr =>
        obtain ⟨g2, offs2⟩ := pr
        rw [hrec] at h
        simp only [Option.some.injEq, Prod.mk.injEq] at h
        intro kv hkv
        rw [← h.1] at hkv
        have := ih (off + limit) _ (prev ++ page.items) g2 offs2 hacc2 hrec kv hkv
        rw [hflat, ← List.append_assoc]
        exact this

/-- C9 counterexample: the grouping is a `BTreeMap`, so projects iterate in
lexicographic name order, not in insertion order of their first-seen
completion: the page lists the "b work" completion before "a work", yet the
report prints "a work" before "b work" in the secondary stream. -/
theorem c9_counterexample_not_insertion_order :
    pageBThenA.items.map Item.content = ["reconfig work", "b work", "a work"]
    ∧ (fetch_completed_tasks [pageBThenA]).map (fun r => (doit r.1 ocUnused).1) =
      some [Line.header "RECONFIGURATOR ITEMS:",
            Line.content "tR" "reconfig work",
            Line.header "\n\nOther work:",
            Line.content "tA" "a work",
            Line.content "tB" "b work"] := by
  exact ⟨by decide, by decide⟩

/-- C9 (amended): the report prints the primary stream first, then the
separator, then the secondary stream; the content order within the streams
equals the project-grouping order, which is lexicographic project-name
order (map key order), not insertion order of first-seen completion; items
within one project keep arrival order. Precisely: (1) the fetched grouping
is sorted by name; (2) each entry's item list is a sublist of the arrival
sequence; (3) on an error-free run the output is the primary header, then
lines whose content pairs are exactly the deduplicated primary items in
order, then the separator, then lines whose content pairs are exactly the
deduplicated "other" items in grouping order. -/
theorem c9_output_order :
    (∀ (pages : List CompletedItems) (g : Grouping) (offs : List Nat),
      fetch_completed_tasks pages = some (g, offs) →
      List.Chain' (fun a b => strLt a.1 b.1 = true) g)
    ∧ (∀ (pages : List CompletedItems) (g : Grouping) (offs : List Nat)
        (name : String) (items : List Item),
        fetch_completed_tasks pages = some (g, offs) →
        (name, items) ∈ g →
        List.Sublist items (allArrivals pages))
    ∧ ∀ (grouped : Grouping) (oc : Octocrab) (pname : String)
        (pitems : List Item),
        findPrimary grouped = some (pname, pitems) →
        (doit grouped oc).2 = none →
        ∃ primLines otherLines,
          (doit grouped oc).1 =
            Line.header "RECONFIGURATOR ITEMS:" :: primLines
              ++ Line.header "\n\nOther work:" :: otherLines
          ∧ contentOf primLines =
              (dedupNew [] pitems).map (fun it => (it.task_id, it.content))
          ∧ contentOf otherLines =
              (dedupNew (printedAfter [] pitems)
                (otherItems grouped pname)).map
                  (fun it => (it.task_id, it.content)) := by
  refine ⟨?_, ?_, ?_⟩
  · intro pages g offs h
    exact fetch_aux_chain pages 0 [] g offs (by simp) h
  · intro pages g offs name items h hmem
    have := fetch_aux_sublist pages 0 [] [] g offs (by simp) h (name, items) hmem
    simpa [allArrivals] using this
  · intro grouped oc pname pitems hp h
    unfold doit at h ⊢
    rw [hp] at h ⊢
    dsimp only at h ⊢
    obtain ⟨t1, ht1⟩ := runStream_out_extend oc pitems []
      [Line.header "RECONFIGURATOR ITEMS:"]
    rcases hr1 : runStream oc pitems [] [Line.header "RECONFIGURATOR ITEMS:"]
      with ⟨printed1, out1, e1⟩
    rw [hr1] at h ht1
    cases e1 with
    | some e => simp at h
    | none =>
      dsimp only at h ht1 ⊢
      have hs1 := runStream_success_spec oc pitems []
        [Line.header "RECONFIGURATOR ITEMS:"] printed1 out1 hr1
      obtain ⟨t2, ht2⟩ := runStream_out_extend oc (otherItems grouped pname)
        printed1 (out1 ++ [Line.header "\n\nOther work:"])
      rcases hr2 : runStream oc (otherItems grouped pname) printed1
        (out1 ++ [Line.header "\n\nOther work:"]) with ⟨printed2, out2, e2⟩
      rw [hr2] at ht2 h
      dsimp only at ht2 h ⊢
      cases e2 with
      | some e => simp at h
      | none =>
        have hs2 := runStream_success_spec oc (otherItems grouped pname)
          printed1 (out1 ++ [Line.header "\n\nOther work:"]) printed2 out2 hr2
        refine ⟨t1, t2, ?_, ?_, ?_⟩
        · rw [ht2, ht1]
          simp
        · have h1 := hs1.1
          rw [ht1, contentOf_append] at h1
          simpa [contentOf] using h1
        · have h2 := hs2.1
          rw [ht2, contentOf_append] at h2
          have h3 := List.append_cancel_left h2
          rw [h3, hs1.2]

/-- Witness for C9: on concrete inputs, the fetched grouping is in name
order, a project's items are a sublist of the arrival sequence, and a
successful concrete report has the primary block with its exact content
pairs, the separator, then the secondary block with its exact content
pairs. -/
theorem c9_witness :
    List.Chain' (fun a b => strLt a.1 b.1 = true)
      ([("Oxide: A team",
        [{ content := "a work", task_id := "tA", project_id := "pA" }]),
       ("Oxide: B team",
        [{ content := "b work", task_id := "tB", project_id := "pB" }]),
       ("Oxide: Reconfigurator",
        [{ content := "reconfig work", task_id := "tR", project_id := "pR" }])] : Grouping)
    ∧ List.Sublist
        [{ content := "a work", task_id := "tA", project_id := "pA" }]
        (allArrivals [pageBThenA])
    ∧ ∃ primLines otherLines,
        (doit [("Oxide: Reconfigurator",
            [{ content := "alpha", task_id := "t1", project_id := "p1" }])]
          ocUnused).1 =
          Line.header "RECONFIGURATOR ITEMS:" :: primLines
            ++ Line.header "\n\nOther work:" :: otherLines
        ∧ contentOf primLines =
            (dedupNew []
              [{ content := "alpha", task_id := "t1", project_id := "p1" }]).map
                (fun it => (it.task_id, it.content))
        ∧ contentOf otherLines =
            (dedupNew (printedAfter []
                [{ content := "alpha", task_id := "t1", project_id := "p1" }])
              (otherItems [("Oxide: Reconfigurator",
                [{ content := "alpha", task_id := "t1", project_id := "p1" }])]
                "Oxide: Reconfigurator")).map
                  (fun it => (it.task_id, it.content)) :=
  ⟨c9_output_order.1 [pageBThenA]
      ([("Oxide: A team",
        [{ content := "a work", task_id := "tA", project_id := "pA" }]),
       ("Oxide: B team",
        [{ content := "b work", task_id := "tB", project_id := "pB" }]),
       ("Oxide: Reconfigurator",
        [{ content := "reconfig work", task_id := "tR", project_id := "pR" }])] : Grouping)
      [0] (by decide),
   c9_output_order.2.1 [pageBThenA]
      ([("Oxide: A team",
        [{ content := "a work", task_id := "tA", project_id := "pA" }]),
       ("Oxide: B team",
        [{ content := "b work", task_id := "tB", project_id := "pB" }]),
       ("Oxide: Reconfigurator",
        [{ content := "reconfig work", task_id := "tR", project_id := "pR" }])] : Grouping)
      [0] "Oxide: A team" _ (by decide) (by decide),
   c9_output_order.2.2 _ ocUnused "Oxide: Reconfigurator" _ (by decide) (by decide)⟩

end TodoistHelper
